import Mathlib

/-!
# Verification of the `WorldServerThread` coordination layer

Shallow embedding of `WorldServerThread` (StarWorldServerThread.cpp): the
per-world host thread that ferries packets between network dispatch and the
simulation engine, isolates per-client faults, and adapts simulation
fidelity to spare tick time.

The simulation engine (`WorldServer`) is an external collaborator: its
responses (accept/reject decisions, packets produced, faults raised) are
universally quantified oracle inputs to each operation.  Faults raised by
engine calls are modelled with `Except`: an operation whose C++ body lets an
exception escape is `Except`-valued and returns `.error` carrying the memory
state at the throw point; a `try`/`catch` in the C++ body appears as a
`match` on the oracle's `Except` result.
-/

namespace WorldServer

/-- `ConnectionId` in the source; opaque here. -/
abbrev ClientId := Nat

/-- `PacketPtr` in the source; opaque here. -/
abbrev Packet := Nat

/-- `WorldServerFidelity`: the four discrete fidelity levels, in order. -/
inductive Fid where
  | Minimum
  | Low
  | Medium
  | High
deriving DecidableEq, Repr

/-- Numeric value of a fidelity level (the underlying C++ enum value). -/
def Fid.toNat : Fid → Nat
  | .Minimum => 0
  | .Low => 1
  | .Medium => 2
  | .High => 3

/-- `if (automaticFidelity < High) automaticFidelity = automaticFidelity + 1`:
one level up, capped at `High`. -/
def fidUp : Fid → Fid
  | .Minimum => .Low
  | .Low => .Medium
  | .Medium => .High
  | .High => .High

/-- `if (automaticFidelity > Minimum) automaticFidelity = automaticFidelity - 1`:
one level down, floored at `Minimum`. -/
def fidDown : Fid → Fid
  | .Minimum => .Minimum
  | .Low => .Minimum
  | .Medium => .Low
  | .High => .Medium

/-! ## Packet-queue maps

`m_incomingPacketQueue` / `m_outgoingPacketQueue` are `Map<ConnectionId,
List<PacketPtr>>`; modelled as association lists with unique keys.
`operator[]` creates a (default-empty) entry when the key is absent, which
is why `qSet` inserts when the key is missing. -/

/-- A `Map<ConnectionId, List<PacketPtr>>`. -/
abbrev PQ := List (ClientId × List Packet)

/-- Value at a key; `[]` when absent (the default `operator[]` would create). -/
def qGet : PQ → ClientId → List Packet
  | [], _ => []
  | e :: rest, id => if e.1 = id then e.2 else qGet rest id

/-- Whether the map has an entry for the key. -/
def qHas : PQ → ClientId → Bool
  | [], _ => false
  | e :: rest, id => decide (e.1 = id) || qHas rest id

/-- `m[id] = v`, creating the entry when absent (as `operator[]` does). -/
def qSet : PQ → ClientId → List Packet → PQ
  | [], id, v => [(id, v)]
  | e :: rest, id, v => if e.1 = id then (id, v) :: rest else e :: qSet rest id v

/-- `m[id].appendAll(ps)`: append through `operator[]` (creates the entry). -/
def qAppend (m : PQ) (id : ClientId) (ps : List Packet) : PQ :=
  qSet m id (qGet m id ++ ps)

/-- `m.remove(id)`: drop the entry for the key. -/
def qRemove : PQ → ClientId → PQ
  | [], _ => []
  | e :: rest, id => if e.1 = id then qRemove rest id else e :: qRemove rest id

/-- `HashSet::add`: add an element unless present. -/
def listAdd (l : List ClientId) (id : ClientId) : List ClientId :=
  if id ∈ l then l else l ++ [id]

/-- `HashSet::remove` / `List::remove`: drop the element. -/
def listErase (l : List ClientId) (id : ClientId) : List ClientId :=
  l.filter (fun j => j ≠ id)

/-! ## Host state

`WorldServerThread`'s fields, plus the engine-visible state that the
thread's code observes and mutates through `m_worldServer`: the set of
clients the engine currently recognizes (`clientIds`/`hasClient`,
changed only by the engine's `addClient`/`removeClient`), and the fidelity
level last applied through `setFidelity`. -/

structure WSState where
  /-- `m_clients` : the registry of attached client ids. -/
  clients : List ClientId
  /-- The ids the engine currently recognizes (`m_worldServer->clientIds()`). -/
  engineClients : List ClientId
  /-- `m_incomingPacketQueue`. -/
  incoming : PQ
  /-- `m_outgoingPacketQueue`. -/
  outgoing : PQ
  /-- `m_errorOccurred` : the sticky fault flag. -/
  errorOccurred : Bool
  /-- The last fidelity level applied via `m_worldServer->setFidelity`. -/
  engineFidelity : Fid
deriving DecidableEq, Repr

/-- The freshly-constructed host: no clients, empty queues, no error. -/
def initWS : WSState :=
  { clients := [], engineClients := [], incoming := [], outgoing := [],
    errorOccurred := false, engineFidelity := Fid.Medium }

/-- `m_errorOccurred = true`. -/
def setError (st : WSState) : WSState := { st with errorOccurred := true }

/-! ## Public queue accessors (queue lock only, no engine call, no catch) -/

/-- `pushIncomingPackets`: `m_incomingPacketQueue[clientId].appendAll(move(packets))`. -/
def pushIncomingPackets (st : WSState) (id : ClientId) (ps : List Packet) : WSState :=
  { st with incoming := qAppend st.incoming id ps }

/-- `pullOutgoingPackets`: `take(m_outgoingPacketQueue[clientId])` — returns the
whole queued list and leaves an emptied entry behind (`operator[]` creates it). -/
def pullOutgoingPackets (st : WSState) (id : ClientId) : List Packet × WSState :=
  (qGet st.outgoing id, { st with outgoing := qSet st.outgoing id [] })

/-- `erroredClients`: `m_clients.difference(HashSet::from(m_worldServer->clientIds()))`. -/
def erroredClients (st : WSState) : List ClientId :=
  st.clients.filter (fun id => id ∉ st.engineClients)

/-! ## Registry operations -/

/-- `addClient`: the engine's accept/reject decision (or fault) is the oracle
`resp`.  On acceptance the engine registers the id and so does `m_clients`;
on rejection nothing changes; a fault is caught, sets the sticky flag and
returns `false`. -/
def addClient (st : WSState) (id : ClientId) (resp : Except Unit Bool) :
    Except WSState (Bool × WSState) :=
  match resp with
  | .error _ => .ok (false, setError st)
  | .ok true => .ok (true, { st with clients := listAdd st.clients id,
                                     engineClients := listAdd st.engineClients id })
  | .ok false => .ok (false, st)

instance instDecEqExcept {ε α : Type} [DecidableEq ε] [DecidableEq α] :
    DecidableEq (Except ε α) := fun a b =>
  match a, b with
  | .ok x, .ok y =>
    if h : x = y then .isTrue (congrArg Except.ok h)
    else .isFalse (fun hh => h (Except.ok.inj hh))
  | .error x, .error y =>
    if h : x = y then .isTrue (congrArg Except.error h)
    else .isFalse (fun hh => h (Except.error.inj hh))
  | .ok _, .error _ => .isFalse (fun hh => Except.noConfusion hh)
  | .error _, .ok _ => .isFalse (fun hh => Except.noConfusion hh)

/-- Oracle for the two engine calls `removeClient` makes inside its `try`. -/
structure RemoveOracle where
  /-- Outcome of `m_worldServer->handleIncomingPackets(clientId, …)`. -/
  handle : Except Unit Unit
  /-- Outcome of `m_worldServer->removeClient(clientId)`: the final packets
  the engine emits, or a fault. -/
  enginePkts : Except Unit (List Packet)
deriving DecidableEq

/-- `removeClient`: early-returns `{}` for an unknown id; otherwise drains the
incoming queue, delivers it if the engine still has the client, takes the
outgoing queue, appends the engine's removal packets if it still has the
client; any fault is caught (setting the sticky flag) and then — fault or
not — the id is unregistered from `m_clients` and both queue maps. -/
def removeClient (st : WSState) (id : ClientId) (o : RemoveOracle) :
    Except WSState (List Packet × WSState) :=
  if id ∈ st.clients then
    let st1 : WSState := { st with incoming := qSet st.incoming id [] }
    let handleRes := if id ∈ st1.engineClients then o.handle else Except.ok ()
    let step : List Packet × WSState × Bool :=
      match handleRes with
      | .error _ => ([], st1, true)
      | .ok _ =>
        let p := qGet st1.outgoing id
        let st2 : WSState := { st1 with outgoing := qSet st1.outgoing id [] }
        if id ∈ st2.engineClients then
          match o.enginePkts with
          | .error _ => (p, st2, true)
          | .ok ps =>
            (p ++ ps, { st2 with engineClients := listErase st2.engineClients id }, false)
        else (p, st2, false)
    let st3 := if step.2.2 then setError step.2.1 else step.2.1
    .ok (step.1, { st3 with clients := listErase st3.clients id,
                            incoming := qRemove st3.incoming id,
                            outgoing := qRemove st3.outgoing id })
  else
    .ok ([], st)

/-- State component of `removeClient` (it always returns normally). -/
def removeSt (st : WSState) (id : ClientId) (o : RemoveOracle) : WSState :=
  match removeClient st id o with
  | .ok r => r.2
  | .error e => e

/-! ## Simple fault-catching accessors -/

/-- `spawnTargetValid`: forwards the engine's answer; a fault is caught,
sets the sticky flag and yields `false`. -/
def spawnTargetValid (st : WSState) (resp : Except Unit Bool) :
    Except WSState (Bool × WSState) :=
  match resp with
  | .error _ => .ok (false, setError st)
  | .ok b => .ok (b, st)

/-- `playerRevivePosition`: the oracle provides the engine's
`clientPlayer` lookup (position and feet offset, as pairs of rationals for
the `Vec2F`s); the operation returns their sum; a fault is caught, sets the
sticky flag and yields `{}`. -/
def playerRevivePosition (st : WSState)
    (resp : Except Unit (Option ((ℚ × ℚ) × (ℚ × ℚ)))) :
    Except WSState (Option (ℚ × ℚ) × WSState) :=
  match resp with
  | .error _ => .ok (none, setError st)
  | .ok none => .ok (none, st)
  | .ok (some pf) => .ok (some (pf.1.1 + pf.2.1, pf.1.2 + pf.2.2), st)

/-- `pullNewPlanetType`: forwards the engine's answer; a fault is caught,
sets the sticky flag and yields `{}`. -/
def pullNewPlanetType (st : WSState)
    (resp : Except Unit (Option (String × String))) :
    Except WSState (Option (String × String) × WSState) :=
  match resp with
  | .error _ => .ok (none, setError st)
  | .ok v => .ok (v, st)

/-- The payload of `readChunks` (`WorldChunks`); opaque here. -/
abbrev WorldChunks := List Nat

/-- `readChunks`: forwards the engine's chunk snapshot; a fault is caught,
sets the sticky flag and yields `{}`. -/
def readChunks (st : WSState) (resp : Except Unit WorldChunks) :
    Except WSState (WorldChunks × WSState) :=
  match resp with
  | .error _ => .ok ([], setError st)
  | .ok c => .ok (c, st)

/-- `executeAction`: runs the injected action under the lock.  There is no
`try`/`catch` in the source — a fault raised by the action escapes. -/
def executeAction (st : WSState) (action : WSState → Except WSState WSState) :
    Except WSState WSState :=
  action st

/-! ## The per-tick `update` step

`update(fidelity)` snapshots `m_worldServer->clientIds()`, drains and
delivers each client's incoming queue with per-client fault isolation,
applies the fidelity level, runs the engine's update (unless paused), then
appends the engine's produced packets to each still-active client's
outgoing queue, and finally invokes the optional update hook.  The engine's
behaviour for one tick is a `TickOracle`. -/

/-- Engine responses during one `update` tick. -/
structure TickOracle where
  /-- Outcome of `handleIncomingPackets` for each client. -/
  handle : ClientId → Except Unit Unit
  /-- When delivery faulted: outcome of the engine's `removeClient` (the
  packets it returns), itself made inside the `catch` block. -/
  removePkts : ClientId → Except Unit (List Packet)
  /-- Outcome of `m_worldServer->update()`. -/
  engineUpdate : Except Unit Unit
  /-- Outcome of `getOutgoingPackets` for each still-active client. -/
  produced : ClientId → Except Unit (List Packet)

/-- A tick oracle in which every engine call other than packet delivery
succeeds (delivery faults exactly on the clients `hf` selects). -/
def mkTickOracle (hf : ClientId → Bool) (rp pr : ClientId → List Packet) : TickOracle :=
  { handle := fun j => if hf j then .error () else .ok (),
    removePkts := fun j => .ok (rp j),
    engineUpdate := .ok (),
    produced := fun j => .ok (pr j) }

/-- The delivery loop of `update`: for each snapshotted id, take its
incoming queue (through `operator[]`, so the entry is created and emptied)
and deliver it to the engine; on a fault, log, append the engine's removal
packets to the id's outgoing queue, drop the id from the engine and from
the active set.  A fault raised by the engine's `removeClient` inside the
`catch` block escapes.  Returns the state, the remaining active set, and
the log of successful deliveries `(id, packets)`. -/
def deliverLoop (o : TickOracle) :
    List ClientId → WSState → List ClientId → List (ClientId × List Packet) →
    Except WSState (WSState × List ClientId × List (ClientId × List Packet))
  | [], st, active, log => .ok (st, active, log)
  | id :: rest, st, active, log =>
    let inc := qGet st.incoming id
    let st1 : WSState := { st with incoming := qSet st.incoming id [] }
    match o.handle id with
    | .ok _ => deliverLoop o rest st1 active (log ++ [(id, inc)])
    | .error _ =>
      match o.removePkts id with
      | .error _ => .error st1
      | .ok ps =>
        deliverLoop o rest
          { st1 with outgoing := qAppend st1.outgoing id ps,
                     engineClients := listErase st1.engineClients id }
          (listErase active id) log

/-- The collection loop of `update`: for each still-active id, fetch the
engine's produced packets and append them to the id's outgoing queue; a
fault from `getOutgoingPackets` escapes. -/
def collectLoop (o : TickOracle) :
    List ClientId → WSState → Except WSState WSState
  | [], st => .ok st
  | id :: rest, st =>
    match o.produced id with
    | .error _ => .error st
    | .ok ps => collectLoop o rest { st with outgoing := qAppend st.outgoing id ps }

/-- `WorldServerThread::update(fidelity)`.  `pause` is the externally-owned
pause flag (`none` when no flag was installed); `hook` is `m_updateAction`.
No `try`/`catch` here — faults escape to `run`'s top-level handler. -/
def update (st : WSState) (fid : Fid) (pause : Option Bool)
    (hook : Option (WSState → Except WSState WSState)) (o : TickOracle) :
    Except WSState (WSState × List (ClientId × List Packet)) :=
  match deliverLoop o st.engineClients st st.engineClients [] with
  | .error e => .error e
  | .ok (st1, active, log) =>
    let st2 : WSState := { st1 with engineFidelity := fid }
    match (if pause.getD false then Except.ok () else o.engineUpdate) with
    | .error _ => .error st2
    | .ok _ =>
      match collectLoop o active st2 with
      | .error e => .error e
      | .ok st3 =>
        match hook with
        | none => .ok (st3, log)
        | some f =>
          match f st3 with
          | .error e => .error e
          | .ok st4 => .ok (st4, log)

/-! ## The run loop's fidelity controller -/

/-- The run loop's local controller state: `fidelityScore` and
`automaticFidelity`. -/
structure LoopState where
  fidelityScore : ℚ
  automaticFidelity : Fid
deriving DecidableEq, Repr

/-- The controller block at the end of each loop iteration:
`fidelityScore += spareTime`, then the two threshold checks, each resetting
the score to zero and stepping the automatic level by one within bounds. -/
def fidelityStep (decT incT spare : ℚ) (ls : LoopState) : LoopState :=
  let s0 := ls.fidelityScore + spare
  let f1 := if s0 ≤ decT then fidDown ls.automaticFidelity else ls.automaticFidelity
  let s1 := if s0 ≤ decT then 0 else s0
  let f2 := if s1 ≥ incT then fidUp f1 else f1
  let s2 := if s1 ≥ incT then 0 else s1
  ⟨s2, f2⟩

/-- One iteration of `run`'s `while` loop: pick the applied fidelity
(`lockedFidelity.value(automaticFidelity)`), call `update`, run the
periodic `sync` when the storage timer elapsed, then advance the fidelity
controller.  The whole body sits inside `run`'s `try`: any escaping fault
is converted into the sticky `m_errorOccurred` flag (after which the loop
exits), so this function always returns normally. -/
def runStep (st : WSState) (ls : LoopState) (locked : Option Fid)
    (pause : Option Bool) (hook : Option (WSState → Except WSState WSState))
    (o : TickOracle) (syncElapsed : Bool) (syncRes : Except Unit Unit)
    (decT incT spare : ℚ) : Except WSState (WSState × LoopState) :=
  match update st (locked.getD ls.automaticFidelity) pause hook o with
  | .error est => .ok (setError est, ls)
  | .ok (st1, _) =>
    match (if syncElapsed then syncRes else Except.ok ()) with
    | .error _ => .ok (setError st1, ls)
    | .ok _ => .ok (st1, fidelityStep decT incT spare ls)

/-! ## Destruction -/

/-- The destructor's cleanup pass: after stopping and joining, it iterates
`m_worldServer->clientIds()` — the ids the *engine* still recognizes — and
calls `removeClient` on each.  `ro` supplies the engine oracle for each
removal. -/
def destructorCleanup (st : WSState) (ro : ClientId → RemoveOracle) : WSState :=
  st.engineClients.foldl (fun s id => removeSt s id (ro id)) st

/-! ## Operation traces

Interleavings of the public operations with ticks, for the queue/registry
invariants.  Tick oracles inside a trace are the benign `mkTickOracle`
form (every engine call other than packet delivery succeeds) with no
update hook installed. -/

/-- One externally-initiated operation or one tick of the run loop. -/
inductive Op where
  | push (id : ClientId) (ps : List Packet)
  | pull (id : ClientId)
  | add (id : ClientId) (resp : Except Unit Bool)
  | remove (id : ClientId) (o : RemoveOracle)
  | tick (fid : Fid) (pause : Option Bool) (hf : ClientId → Bool)
         (rp : ClientId → List Packet) (pr : ClientId → List Packet)

/-- State component of `addClient` (it always returns normally). -/
def addSt (st : WSState) (id : ClientId) (resp : Except Unit Bool) : WSState :=
  match addClient st id resp with
  | .ok r => r.2
  | .error e => e

/-- State component of one tick (`update` with a benign oracle always
returns normally; the `.error` arm is unreachable). -/
def tickSt (st : WSState) (fid : Fid) (pause : Option Bool)
    (hf : ClientId → Bool) (rp pr : ClientId → List Packet) : WSState :=
  match update st fid pause none (mkTickOracle hf rp pr) with
  | .ok r => r.1
  | .error e => e

/-- Apply one operation to the host state.  A tick happens only while the
run loop is alive: the loop condition `!m_stop && !m_errorOccurred` means no
further `update` runs once the sticky flag is set. -/
def applyOp (st : WSState) : Op → WSState
  | .push id ps => pushIncomingPackets st id ps
  | .pull id => (pullOutgoingPackets st id).2
  | .add id resp => addSt st id resp
  | .remove id o => removeSt st id o
  | .tick fid pause hf rp pr =>
    if st.errorOccurred then st else tickSt st fid pause hf rp pr

/-- Apply a list of operations in order. -/
def runOps (st : WSState) : List Op → WSState
  | [] => st
  | op :: rest => runOps (applyOp st op) rest

/-! ## Basic lemmas about the queue maps and id sets -/

theorem qGet_qSet_self (m : PQ) (id : ClientId) (v : List Packet) :
    qGet (qSet m id v) id = v := by
  induction m with
  | nil => simp [qSet, qGet]
  | cons e rest ih => by_cases h : e.1 = id <;> simp [qSet, qGet, h, ih]

theorem qGet_qSet_ne (m : PQ) {id j : ClientId} (h : j ≠ id) (v : List Packet) :
    qGet (qSet m id v) j = qGet m j := by
  induction m with
  | nil => simp [qSet, qGet, Ne.symm h]
  | cons e rest ih =>
    by_cases he : e.1 = id
    · subst he
      simp [qSet, qGet, Ne.symm h]
    · simp only [qSet, if_neg he, qGet]
      by_cases hj : e.1 = j <;> simp [hj, ih]

theorem qHas_qSet (m : PQ) (id : ClientId) (v : List Packet) (j : ClientId) :
    qHas (qSet m id v) j = (decide (j = id) || qHas m j) := by
  induction m with
  | nil => simp [qSet, qHas, eq_comm]
  | cons e rest ih =>
    by_cases he : e.1 = id
    · subst he
      simp [qSet, qHas, eq_comm]
    · simp only [qSet, if_neg he, qHas, ih]
      by_cases hj : e.1 = j <;> simp [hj, eq_comm]

theorem qGet_qAppend_self (m : PQ) (id : ClientId) (ps : List Packet) :
    qGet (qAppend m id ps) id = qGet m id ++ ps := by
  simp [qAppend, qGet_qSet_self]

theorem qGet_qAppend_ne (m : PQ) {id j : ClientId} (h : j ≠ id) (ps : List Packet) :
    qGet (qAppend m id ps) j = qGet m j := by
  simp [qAppend, qGet_qSet_ne m h]

theorem qHas_qAppend (m : PQ) (id : ClientId) (ps : List Packet) (j : ClientId) :
    qHas (qAppend m id ps) j = (decide (j = id) || qHas m j) := by
  simp [qAppend, qHas_qSet]

theorem qGet_qRemove_ne (m : PQ) {id j : ClientId} (h : j ≠ id) :
    qGet (qRemove m id) j = qGet m j := by
  induction m with
  | nil => simp [qRemove, qGet]
  | cons e rest ih =>
    by_cases he : e.1 = id
    · subst he
      have hj : e.1 ≠ j := fun hh => h (hh.symm.trans rfl)
      simp [qRemove, qGet, hj, ih]
    · simp only [qRemove, if_neg he, qGet]
      by_cases hj : e.1 = j <;> simp [hj, ih]

theorem qHas_qRemove (m : PQ) (id j : ClientId) :
    qHas (qRemove m id) j = (decide (j ≠ id) && qHas m j) := by
  induction m with
  | nil => simp [qRemove, qHas]
  | cons e rest ih =>
    by_cases he : e.1 = id
    · subst he
      by_cases hj : e.1 = j
      · subst hj
        simp [qRemove, qHas, ih]
      · simp [qRemove, qHas, Ne.symm hj, hj, ih]
    · simp only [qRemove, if_neg he, qHas, ih]
      by_cases hj : e.1 = j
      · subst hj
        simp [he]
      · simp [hj]

theorem mem_listAdd {l : List ClientId} {id j : ClientId} :
    j ∈ listAdd l id ↔ j = id ∨ j ∈ l := by
  by_cases h : id ∈ l
  · simp only [listAdd, if_pos h]
    constructor
    · exact Or.inr
    · rintro (rfl | hj)
      · exact h
      · exact hj
  · simp [listAdd, if_neg h, or_comm]

theorem mem_listErase {l : List ClientId} {id j : ClientId} :
    j ∈ listErase l id ↔ j ∈ l ∧ j ≠ id := by
  simp [listErase]

theorem nodup_listErase {l : List ClientId} (h : l.Nodup) (id : ClientId) :
    (listErase l id).Nodup :=
  h.filter _

/-! ## The tick under a benign oracle, as a pure function

With a `mkTickOracle` (every engine call other than packet delivery
succeeds) and no update hook, `update` never propagates a fault; the
following pure functions compute its result, and the refinement theorems
connect them to `deliverLoop`/`collectLoop`/`update`. -/

/-- Pure form of `deliverLoop` under `mkTickOracle hf rp pr`. -/
def deliverPure (hf : ClientId → Bool) (rp : ClientId → List Packet) :
    List ClientId → WSState → List ClientId → List (ClientId × List Packet) →
    WSState × List ClientId × List (ClientId × List Packet)
  | [], st, active, log => (st, active, log)
  | id :: rest, st, active, log =>
    let inc := qGet st.incoming id
    let st1 : WSState := { st with incoming := qSet st.incoming id [] }
    if hf id then
      deliverPure hf rp rest
        { st1 with outgoing := qAppend st1.outgoing id (rp id),
                   engineClients := listErase st1.engineClients id }
        (listErase active id) log
    else
      deliverPure hf rp rest st1 active (log ++ [(id, inc)])

/-- Pure form of `collectLoop` under `mkTickOracle hf rp pr`. -/
def collectPure (pr : ClientId → List Packet) : List ClientId → WSState → WSState
  | [], st => st
  | id :: rest, st =>
    collectPure pr rest { st with outgoing := qAppend st.outgoing id (pr id) }

theorem mkTickOracle_handle (hf : ClientId → Bool) (rp pr : ClientId → List Packet)
    (j : ClientId) :
    (mkTickOracle hf rp pr).handle j
      = if hf j then Except.error () else Except.ok () := rfl

theorem mkTickOracle_removePkts (hf : ClientId → Bool) (rp pr : ClientId → List Packet)
    (j : ClientId) :
    (mkTickOracle hf rp pr).removePkts j = Except.ok (rp j) := rfl

theorem mkTickOracle_engineUpdate (hf : ClientId → Bool) (rp pr : ClientId → List Packet) :
    (mkTickOracle hf rp pr).engineUpdate = Except.ok () := rfl

theorem mkTickOracle_produced (hf : ClientId → Bool) (rp pr : ClientId → List Packet)
    (j : ClientId) :
    (mkTickOracle hf rp pr).produced j = Except.ok (pr j) := rfl

theorem deliverLoop_mk (hf : ClientId → Bool) (rp pr : ClientId → List Packet)
    (l : List ClientId) (st : WSState) (active : List ClientId)
    (log : List (ClientId × List Packet)) :
    deliverLoop (mkTickOracle hf rp pr) l st active log
      = .ok (deliverPure hf rp l st active log) := by
  induction l generalizing st active log with
  | nil => simp [deliverLoop, deliverPure]
  | cons id rest ih =>
    by_cases h : hf id <;>
      simp [deliverLoop, deliverPure, mkTickOracle_handle, mkTickOracle_removePkts, h, ih]

theorem collectLoop_mk (hf : ClientId → Bool) (rp pr : ClientId → List Packet)
    (l : List ClientId) (st : WSState) :
    collectLoop (mkTickOracle hf rp pr) l st = .ok (collectPure pr l st) := by
  induction l generalizing st with
  | nil => simp [collectLoop, collectPure]
  | cons id rest ih => simp [collectLoop, collectPure, mkTickOracle_produced, ih]

/-- `update` under a benign oracle and no hook, as a pure computation. -/
theorem update_mk (st : WSState) (fid : Fid) (pause : Option Bool)
    (hf : ClientId → Bool) (rp pr : ClientId → List Packet) :
    update st fid pause none (mkTickOracle hf rp pr)
      = .ok ((fun r => (collectPure pr r.2.1 { r.1 with engineFidelity := fid }, r.2.2))
          (deliverPure hf rp st.engineClients st st.engineClients [])) := by
  by_cases hp : pause.getD false <;>
    simp [update, deliverLoop_mk, collectLoop_mk, mkTickOracle_engineUpdate, hp]

theorem tickSt_eq (st : WSState) (fid : Fid) (pause : Option Bool)
    (hf : ClientId → Bool) (rp pr : ClientId → List Packet) :
    tickSt st fid pause hf rp pr
      = collectPure pr (deliverPure hf rp st.engineClients st st.engineClients []).2.1
          { (deliverPure hf rp st.engineClients st st.engineClients []).1 with
            engineFidelity := fid } := by
  simp [tickSt, update_mk]

/-! ### Observations on `deliverPure` -/

theorem deliverPure_clients (hf : ClientId → Bool) (rp : ClientId → List Packet)
    (l : List ClientId) (st : WSState) (active : List ClientId)
    (log : List (ClientId × List Packet)) :
    (deliverPure hf rp l st active log).1.clients = st.clients := by
  induction l generalizing st active log with
  | nil => rfl
  | cons id rest ih => by_cases h : hf id <;> simp [deliverPure, h, ih]

theorem deliverPure_error (hf : ClientId → Bool) (rp : ClientId → List Packet)
    (l : List ClientId) (st : WSState) (active : List ClientId)
    (log : List (ClientId × List Packet)) :
    (deliverPure hf rp l st active log).1.errorOccurred = st.errorOccurred := by
  induction l generalizing st active log with
  | nil => rfl
  | cons id rest ih => by_cases h : hf id <;> simp [deliverPure, h, ih]

theorem deliverPure_fid (hf : ClientId → Bool) (rp : ClientId → List Packet)
    (l : List ClientId) (st : WSState) (active : List ClientId)
    (log : List (ClientId × List Packet)) :
    (deliverPure hf rp l st active log).1.engineFidelity = st.engineFidelity := by
  induction l generalizing st active log with
  | nil => rfl
  | cons id rest ih => by_cases h : hf id <;> simp [deliverPure, h, ih]

theorem deliverPure_engine_mem (hf : ClientId → Bool) (rp : ClientId → List Packet)
    (l : List ClientId) (st : WSState) (active : List ClientId)
    (log : List (ClientId × List Packet)) (j : ClientId) :
    j ∈ (deliverPure hf rp l st active log).1.engineClients ↔
      j ∈ st.engineClients ∧ ¬(j ∈ l ∧ hf j = true) := by
  induction l generalizing st active log with
  | nil => simp [deliverPure]
  | cons id rest ih =>
    by_cases h : hf id
    · by_cases hj : j = id
      · subst hj
        simp [deliverPure, h, ih, mem_listErase]
      · simp [deliverPure, h, ih, mem_listErase, hj]
    · by_cases hj : j = id
      · subst hj
        simp [deliverPure, h, ih]
      · simp [deliverPure, h, ih, hj]

theorem deliverPure_active_mem (hf : ClientId → Bool) (rp : ClientId → List Packet)
    (l : List ClientId) (st : WSState) (active : List ClientId)
    (log : List (ClientId × List Packet)) (j : ClientId) :
    j ∈ (deliverPure hf rp l st active log).2.1 ↔
      j ∈ active ∧ ¬(j ∈ l ∧ hf j = true) := by
  induction l generalizing st active log with
  | nil => simp [deliverPure]
  | cons id rest ih =>
    by_cases h : hf id
    · by_cases hj : j = id
      · subst hj
        simp [deliverPure, h, ih, mem_listErase]
      · simp [deliverPure, h, ih, mem_listErase, hj]
    · by_cases hj : j = id
      · subst hj
        simp [deliverPure, h, ih]
      · simp [deliverPure, h, ih, hj]

theorem deliverPure_active_nodup (hf : ClientId → Bool) (rp : ClientId → List Packet)
    (l : List ClientId) (st : WSState) (active : List ClientId)
    (log : List (ClientId × List Packet)) (h : active.Nodup) :
    (deliverPure hf rp l st active log).2.1.Nodup := by
  induction l generalizing st active log with
  | nil => exact h
  | cons id rest ih =>
    by_cases hh : hf id <;> simp only [deliverPure, hh, if_pos, if_neg, Bool.false_eq_true,
      ite_true, ite_false]
    · exact ih _ _ _ (nodup_listErase h id)
    · exact ih _ _ _ h

theorem deliverPure_engine_nodup (hf : ClientId → Bool) (rp : ClientId → List Packet)
    (l : List ClientId) (st : WSState) (active : List ClientId)
    (log : List (ClientId × List Packet)) (h : st.engineClients.Nodup) :
    (deliverPure hf rp l st active log).1.engineClients.Nodup := by
  induction l generalizing st active log with
  | nil => exact h
  | cons id rest ih =>
    by_cases hh : hf id <;> simp only [deliverPure, hh, if_pos, if_neg, Bool.false_eq_true,
      ite_true, ite_false]
    · exact ih _ _ _ (nodup_listErase h id)
    · exact ih _ _ _ h

theorem deliverPure_incoming_get (hf : ClientId → Bool) (rp : ClientId → List Packet)
    (l : List ClientId) (st : WSState) (active : List ClientId)
    (log : List (ClientId × List Packet)) (j : ClientId) :
    qGet (deliverPure hf rp l st active log).1.incoming j
      = if j ∈ l then [] else qGet st.incoming j := by
  induction l generalizing st active log with
  | nil => simp [deliverPure]
  | cons id rest ih =>
    by_cases hj : j = id
    · subst hj
      by_cases h : hf j <;> simp [deliverPure, h, ih, qGet_qSet_self]
    · by_cases h : hf id <;> simp [deliverPure, h, ih, hj, qGet_qSet_ne _ hj]

theorem deliverPure_incoming_has (hf : ClientId → Bool) (rp : ClientId → List Packet)
    (l : List ClientId) (st : WSState) (active : List ClientId)
    (log : List (ClientId × List Packet)) (j : ClientId) :
    qHas (deliverPure hf rp l st active log).1.incoming j = true ↔
      j ∈ l ∨ qHas st.incoming j = true := by
  induction l generalizing st active log with
  | nil => simp [deliverPure]
  | cons id rest ih =>
    by_cases hj : j = id
    · subst hj
      by_cases h : hf j <;> simp [deliverPure, h, ih, qHas_qSet]
    · by_cases h : hf id <;> simp [deliverPure, h, ih, qHas_qSet, hj]

theorem deliverPure_outgoing_has (hf : ClientId → Bool) (rp : ClientId → List Packet)
    (l : List ClientId) (st : WSState) (active : List ClientId)
    (log : List (ClientId × List Packet)) (j : ClientId) :
    qHas (deliverPure hf rp l st active log).1.outgoing j = true ↔
      (j ∈ l ∧ hf j = true) ∨ qHas st.outgoing j = true := by
  induction l generalizing st active log with
  | nil => simp [deliverPure]
  | cons id rest ih =>
    by_cases hj : j = id
    · subst hj
      by_cases h : hf j <;> simp [deliverPure, h, ih, qHas_qAppend]
    · by_cases h : hf id <;> simp [deliverPure, h, ih, qHas_qAppend, hj]

theorem deliverPure_outgoing_get (hf : ClientId → Bool) (rp : ClientId → List Packet)
    (l : List ClientId) :
    l.Nodup → ∀ (st : WSState) (active : List ClientId)
      (log : List (ClientId × List Packet)) (j : ClientId),
    qGet (deliverPure hf rp l st active log).1.outgoing j
      = qGet st.outgoing j ++ (if j ∈ l ∧ hf j = true then rp j else []) := by
  induction l with
  | nil =>
    intro _ st active log j
    simp [deliverPure]
  | cons id rest ih =>
    intro hnd st active log j
    have hid : id ∉ rest := (List.nodup_cons.mp hnd).1
    have hrest : rest.Nodup := (List.nodup_cons.mp hnd).2
    by_cases h : hf id
    · by_cases hj : j = id
      · subst hj
        simp [deliverPure, h, ih hrest, qGet_qAppend_self, hid]
      · simp [deliverPure, h, ih hrest, qGet_qAppend_ne _ hj, hj]
    · by_cases hj : j = id
      · subst hj
        simp [deliverPure, h, ih hrest, hid]
      · simp [deliverPure, h, ih hrest, hj]

theorem deliverPure_log (hf : ClientId → Bool) (rp : ClientId → List Packet)
    (l : List ClientId) :
    l.Nodup → ∀ (st : WSState) (active : List ClientId)
      (log : List (ClientId × List Packet)),
    (deliverPure hf rp l st active log).2.2
      = log ++ (l.filter (fun j => !hf j)).map (fun j => (j, qGet st.incoming j)) := by
  induction l with
  | nil =>
    intro _ st active log
    simp [deliverPure]
  | cons id rest ih =>
    intro hnd st active log
    have hid : id ∉ rest := (List.nodup_cons.mp hnd).1
    have hrest : rest.Nodup := (List.nodup_cons.mp hnd).2
    have hmap : ∀ (v : List Packet),
        (rest.filter (fun j => !hf j)).map
            (fun j => (j, qGet (qSet st.incoming id v) j))
          = (rest.filter (fun j => !hf j)).map (fun j => (j, qGet st.incoming j)) := by
      intro v
      refine List.map_congr_left ?_
      intro a ha
      have haa : a ∈ rest := (List.mem_filter.mp ha).1
      have hane : a ≠ id := fun hh => hid (hh ▸ haa)
      rw [qGet_qSet_ne _ hane]
    by_cases h : hf id
    · simp [deliverPure, h, ih hrest, hmap]
    · simp [deliverPure, h, ih hrest, hmap]

/-! ### Observations on `collectPure` -/

theorem collectPure_clients (pr : ClientId → List Packet) (l : List ClientId)
    (st : WSState) : (collectPure pr l st).clients = st.clients := by
  induction l generalizing st with
  | nil => rfl
  | cons id rest ih => simp [collectPure, ih]

theorem collectPure_engine (pr : ClientId → List Packet) (l : List ClientId)
    (st : WSState) : (collectPure pr l st).engineClients = st.engineClients := by
  induction l generalizing st with
  | nil => rfl
  | cons id rest ih => simp [collectPure, ih]

theorem collectPure_error (pr : ClientId → List Packet) (l : List ClientId)
    (st : WSState) : (collectPure pr l st).errorOccurred = st.errorOccurred := by
  induction l generalizing st with
  | nil => rfl
  | cons id rest ih => simp [collectPure, ih]

theorem collectPure_fid (pr : ClientId → List Packet) (l : List ClientId)
    (st : WSState) : (collectPure pr l st).engineFidelity = st.engineFidelity := by
  induction l generalizing st with
  | nil => rfl
  | cons id rest ih => simp [collectPure, ih]

theorem collectPure_incoming (pr : ClientId → List Packet) (l : List ClientId)
    (st : WSState) : (collectPure pr l st).incoming = st.incoming := by
  induction l generalizing st with
  | nil => rfl
  | cons id rest ih => simp [collectPure, ih]

theorem collectPure_outgoing_get (pr : ClientId → List Packet) (l : List ClientId) :
    l.Nodup → ∀ (st : WSState) (j : ClientId),
    qGet (collectPure pr l st).outgoing j
      = qGet st.outgoing j ++ (if j ∈ l then pr j else []) := by
  induction l with
  | nil =>
    intro _ st j
    simp [collectPure]
  | cons id rest ih =>
    intro hnd st j
    have hid : id ∉ rest := (List.nodup_cons.mp hnd).1
    have hrest : rest.Nodup := (List.nodup_cons.mp hnd).2
    by_cases hj : j = id
    · subst hj
      simp [collectPure, ih hrest, qGet_qAppend_self, hid]
    · simp [collectPure, ih hrest, qGet_qAppend_ne _ hj, hj]

theorem collectPure_outgoing_has (pr : ClientId → List Packet) (l : List ClientId)
    (st : WSState) (j : ClientId) :
    qHas (collectPure pr l st).outgoing j = true ↔
      j ∈ l ∨ qHas st.outgoing j = true := by
  induction l generalizing st with
  | nil => simp [collectPure]
  | cons id rest ih =>
    by_cases hj : j = id
    · subst hj
      simp [collectPure, ih, qHas_qAppend]
    · simp [collectPure, ih, qHas_qAppend, hj]

/-! ### Observations on one tick (`tickSt`) -/

/-- The packets a tick appends to `id`'s outgoing queue: the engine's
removal packets when delivery faults, its produced packets when the client
stays active, nothing when the engine does not know the client. -/
def tickSeg (st : WSState) (id : ClientId) (hf : ClientId → Bool)
    (rp pr : ClientId → List Packet) : List Packet :=
  if id ∈ st.engineClients then (if hf id then rp id else pr id) else []

theorem tickSt_clients (st : WSState) (fid : Fid) (pause : Option Bool)
    (hf : ClientId → Bool) (rp pr : ClientId → List Packet) :
    (tickSt st fid pause hf rp pr).clients = st.clients := by
  rw [tickSt_eq]
  simp [collectPure_clients, deliverPure_clients]

theorem tickSt_error (st : WSState) (fid : Fid) (pause : Option Bool)
    (hf : ClientId → Bool) (rp pr : ClientId → List Packet) :
    (tickSt st fid pause hf rp pr).errorOccurred = st.errorOccurred := by
  rw [tickSt_eq]
  simp [collectPure_error, deliverPure_error]

theorem tickSt_fid (st : WSState) (fid : Fid) (pause : Option Bool)
    (hf : ClientId → Bool) (rp pr : ClientId → List Packet) :
    (tickSt st fid pause hf rp pr).engineFidelity = fid := by
  rw [tickSt_eq]
  simp [collectPure_fid]

theorem tickSt_engine_mem (st : WSState) (fid : Fid) (pause : Option Bool)
    (hf : ClientId → Bool) (rp pr : ClientId → List Packet) (j : ClientId) :
    j ∈ (tickSt st fid pause hf rp pr).engineClients ↔
      j ∈ st.engineClients ∧ hf j = false := by
  rw [tickSt_eq]
  simp only [collectPure_engine, deliverPure_engine_mem]
  constructor
  · rintro ⟨hm, hn⟩
    refine ⟨hm, ?_⟩
    rcases Bool.eq_false_or_eq_true (hf j) with hb | hb
    · exact absurd ⟨hm, hb⟩ hn
    · exact hb
  · rintro ⟨hm, hb⟩
    exact ⟨hm, fun hc => by simp [hb] at hc⟩

theorem tickSt_engine_nodup (st : WSState) (fid : Fid) (pause : Option Bool)
    (hf : ClientId → Bool) (rp pr : ClientId → List Packet)
    (h : st.engineClients.Nodup) :
    (tickSt st fid pause hf rp pr).engineClients.Nodup := by
  rw [tickSt_eq]
  rw [collectPure_engine]
  exact deliverPure_engine_nodup _ _ _ _ _ _ h

theorem tickSt_incoming_get (st : WSState) (fid : Fid) (pause : Option Bool)
    (hf : ClientId → Bool) (rp pr : ClientId → List Packet) (j : ClientId) :
    qGet (tickSt st fid pause hf rp pr).incoming j
      = if j ∈ st.engineClients then [] else qGet st.incoming j := by
  rw [tickSt_eq]
  simp [collectPure_incoming, deliverPure_incoming_get]

theorem tickSt_incoming_has (st : WSState) (fid : Fid) (pause : Option Bool)
    (hf : ClientId → Bool) (rp pr : ClientId → List Packet) (j : ClientId) :
    qHas (tickSt st fid pause hf rp pr).incoming j = true ↔
      j ∈ st.engineClients ∨ qHas st.incoming j = true := by
  rw [tickSt_eq]
  simp only [collectPure_incoming]
  exact deliverPure_incoming_has _ _ _ _ _ _ _

theorem tickSt_outgoing_get (st : WSState) (fid : Fid) (pause : Option Bool)
    (hf : ClientId → Bool) (rp pr : ClientId → List Packet)
    (hnd : st.engineClients.Nodup) (j : ClientId) :
    qGet (tickSt st fid pause hf rp pr).outgoing j
      = qGet st.outgoing j ++ tickSeg st j hf rp pr := by
  rw [tickSt_eq]
  have hact : (deliverPure hf rp st.engineClients st st.engineClients []).2.1.Nodup :=
    deliverPure_active_nodup _ _ _ _ _ _ hnd
  rw [collectPure_outgoing_get _ _ hact]
  simp only [deliverPure_outgoing_get _ _ _ hnd, deliverPure_active_mem]
  by_cases hm : j ∈ st.engineClients
  · by_cases hb : hf j
    · simp [tickSeg, hm, hb]
    · simp [tickSeg, hm, hb]
  · simp [tickSeg, hm]

theorem tickSt_outgoing_has (st : WSState) (fid : Fid) (pause : Option Bool)
    (hf : ClientId → Bool) (rp pr : ClientId → List Packet) (j : ClientId) :
    qHas (tickSt st fid pause hf rp pr).outgoing j = true ↔
      (j ∈ st.engineClients ∧ hf j = true) ∨
      (j ∈ st.engineClients ∧ hf j = false) ∨ qHas st.outgoing j = true := by
  rw [tickSt_eq]
  rw [collectPure_outgoing_has]
  simp only [deliverPure_active_mem, deliverPure_outgoing_has]
  constructor
  · rintro (⟨hm, hn⟩ | h)
    · rcases Bool.eq_false_or_eq_true (hf j) with hb | hb
      · exact absurd ⟨hm, hb⟩ hn
      · exact Or.inr (Or.inl ⟨hm, hb⟩)
    · rcases h with h | h
      · exact Or.inl h
      · exact Or.inr (Or.inr h)
  · rintro (h | ⟨hm, hb⟩ | h)
    · exact Or.inr (Or.inl h)
    · exact Or.inl ⟨hm, fun hc => by simp [hb] at hc⟩
    · exact Or.inr (Or.inr h)

/-- The log of successful deliveries made by one tick: each non-faulting
engine-known client is delivered exactly its queued incoming packets. -/
theorem tickLog (st : WSState) (fid : Fid) (pause : Option Bool)
    (hf : ClientId → Bool) (rp pr : ClientId → List Packet)
    (hnd : st.engineClients.Nodup) :
    ∃ st1, update st fid pause none (mkTickOracle hf rp pr)
      = .ok (st1, (st.engineClients.filter (fun j => !hf j)).map
          (fun j => (j, qGet st.incoming j))) := by
  refine ⟨collectPure pr (deliverPure hf rp st.engineClients st st.engineClients []).2.1
      { (deliverPure hf rp st.engineClients st st.engineClients []).1 with
        engineFidelity := fid }, ?_⟩
  rw [update_mk]
  simp [deliverPure_log _ _ _ hnd]

/-! ### Observations on `removeClient` and `addClient` -/

theorem removeClient_unreg (st : WSState) (id : ClientId) (o : RemoveOracle)
    (h : id ∉ st.clients) : removeClient st id o = .ok ([], st) := by
  simp [removeClient, h]

theorem removeSt_unreg (st : WSState) (id : ClientId) (o : RemoveOracle)
    (h : id ∉ st.clients) : removeSt st id o = st := by
  simp [removeSt, removeClient_unreg _ _ _ h]

theorem removeSt_clients (st : WSState) (id : ClientId) (o : RemoveOracle) :
    (removeSt st id o).clients = listErase st.clients id := by
  by_cases h : id ∈ st.clients
  · obtain ⟨hh, hp⟩ := o
    by_cases heng : id ∈ st.engineClients <;>
      rcases hh with u | u <;> rcases hp with ps | ps <;>
        simp [removeSt, removeClient, setError, h, heng]
  · rw [removeSt_unreg _ _ _ h]
    symm
    apply List.filter_eq_self.mpr
    intro a ha
    simp only [decide_eq_true_eq]
    exact fun hh => h (hh ▸ ha)

theorem removeSt_engine_mem (st : WSState) (id : ClientId) (o : RemoveOracle)
    (j : ClientId) (hm : j ∈ (removeSt st id o).engineClients) :
    j ∈ st.engineClients := by
  by_cases h : id ∈ st.clients
  · obtain ⟨hh, hp⟩ := o
    by_cases heng : id ∈ st.engineClients <;>
      rcases hh with u | u <;> rcases hp with ps | ps <;>
        simp [removeSt, removeClient, setError, h, heng, mem_listErase] at hm <;>
        tauto
  · rwa [removeSt_unreg _ _ _ h] at hm

theorem removeSt_incoming_has_self (st : WSState) (id : ClientId) (o : RemoveOracle)
    (h : id ∈ st.clients) : qHas (removeSt st id o).incoming id = false := by
  obtain ⟨hh, hp⟩ := o
  by_cases heng : id ∈ st.engineClients <;>
    rcases hh with u | u <;> rcases hp with ps | ps <;>
      simp [removeSt, removeClient, setError, h, heng, qHas_qRemove]

theorem removeSt_outgoing_has_self (st : WSState) (id : ClientId) (o : RemoveOracle)
    (h : id ∈ st.clients) : qHas (removeSt st id o).outgoing id = false := by
  obtain ⟨hh, hp⟩ := o
  by_cases heng : id ∈ st.engineClients <;>
    rcases hh with u | u <;> rcases hp with ps | ps <;>
      simp [removeSt, removeClient, setError, h, heng, qHas_qRemove]

theorem removeSt_incoming_get_ne (st : WSState) (id : ClientId) (o : RemoveOracle)
    {j : ClientId} (hj : j ≠ id) :
    qGet (removeSt st id o).incoming j = qGet st.incoming j := by
  by_cases h : id ∈ st.clients
  · obtain ⟨hh, hp⟩ := o
    by_cases heng : id ∈ st.engineClients <;>
      rcases hh with u | u <;> rcases hp with ps | ps <;>
        simp [removeSt, removeClient, setError, h, heng, qGet_qRemove_ne _ hj, qGet_qSet_ne _ hj]
  · rw [removeSt_unreg _ _ _ h]

theorem removeSt_outgoing_get_ne (st : WSState) (id : ClientId) (o : RemoveOracle)
    {j : ClientId} (hj : j ≠ id) :
    qGet (removeSt st id o).outgoing j = qGet st.outgoing j := by
  by_cases h : id ∈ st.clients
  · obtain ⟨hh, hp⟩ := o
    by_cases heng : id ∈ st.engineClients <;>
      rcases hh with u | u <;> rcases hp with ps | ps <;>
        simp [removeSt, removeClient, setError, h, heng, qGet_qRemove_ne _ hj, qGet_qSet_ne _ hj]
  · rw [removeSt_unreg _ _ _ h]

theorem removeSt_incoming_has_ne (st : WSState) (id : ClientId) (o : RemoveOracle)
    {j : ClientId} (hj : j ≠ id) :
    qHas (removeSt st id o).incoming j = qHas st.incoming j := by
  by_cases h : id ∈ st.clients
  · obtain ⟨hh, hp⟩ := o
    by_cases heng : id ∈ st.engineClients <;>
      rcases hh with u | u <;> rcases hp with ps | ps <;>
        simp [removeSt, removeClient, setError, h, heng, qHas_qRemove, qHas_qSet, hj]
  · rw [removeSt_unreg _ _ _ h]

theorem removeSt_outgoing_has_ne (st : WSState) (id : ClientId) (o : RemoveOracle)
    {j : ClientId} (hj : j ≠ id) :
    qHas (removeSt st id o).outgoing j = qHas st.outgoing j := by
  by_cases h : id ∈ st.clients
  · obtain ⟨hh, hp⟩ := o
    by_cases heng : id ∈ st.engineClients <;>
      rcases hh with u | u <;> rcases hp with ps | ps <;>
        simp [removeSt, removeClient, setError, h, heng, qHas_qRemove, qHas_qSet, hj]
  · rw [removeSt_unreg _ _ _ h]

theorem addSt_cases (st : WSState) (id : ClientId) (resp : Except Unit Bool) :
    addSt st id resp = setError st ∨ addSt st id resp = st ∨
      addSt st id resp = { st with clients := listAdd st.clients id,
                                   engineClients := listAdd st.engineClients id } := by
  rcases resp with u | b
  · exact Or.inl rfl
  · cases b
    · exact Or.inr (Or.inl rfl)
    · exact Or.inr (Or.inr rfl)

theorem removeClient_ne_error (st : WSState) (id : ClientId) (o : RemoveOracle)
    (e : WSState) : removeClient st id o ≠ .error e := by
  by_cases h : id ∈ st.clients
  · obtain ⟨hh, hp⟩ := o
    by_cases heng : id ∈ st.engineClients <;>
      rcases hh with u | u <;> rcases hp with ps | ps <;>
        simp [removeClient, h, heng]
  · simp [removeClient_unreg _ _ _ h]

theorem removeClient_ok (st : WSState) (id : ClientId) (o : RemoveOracle) :
    ∃ pkts, removeClient st id o = .ok (pkts, removeSt st id o) := by
  cases hrc : removeClient st id o with
  | error e => exact absurd hrc (removeClient_ne_error st id o e)
  | ok r =>
    refine ⟨r.1, ?_⟩
    unfold removeSt
    rw [hrc]

/-- When the id is registered, the engine still has it, and delivery of the
drained incoming packets faults, `removeClient` returns no packets at all
(the `outgoingPackets` local was never assigned before the throw). -/
theorem removeClient_fault_empty (st : WSState) (id : ClientId) (o : RemoveOracle)
    (hreg : id ∈ st.clients) (heng : id ∈ st.engineClients)
    (hfault : o.handle = .error ()) :
    removeClient st id o = .ok ([], removeSt st id o) := by
  obtain ⟨hh, hp⟩ := o
  simp only at hfault
  subst hfault
  rcases hp with ps | ps <;>
    simp [removeClient, removeSt, setError, hreg, heng]

theorem mem_erroredClients {st : WSState} {j : ClientId} :
    j ∈ erroredClients st ↔ j ∈ st.clients ∧ j ∉ st.engineClients := by
  simp [erroredClients]

/-! ## The claims -/

/-- C3: each tick with automatic fidelity, the spare time is added to the
score; at or below the decrement threshold the level drops one step floored
at `Minimum` and the score resets to `0`; at or above the increment
threshold the level rises one step capped at `High` and the score resets to
`0`; with `decrementThreshold ≤ 0 < incrementThreshold` at most one
adjustment happens per tick, the level stays within `[Minimum, High]`, and
the score resets on every crossing, including at the bounds. -/
theorem C3_fidelity_controller (decT incT spare : ℚ) (ls : LoopState)
    (hdec : decT ≤ 0) (hinc : 0 < incT) :
    (ls.fidelityScore + spare ≤ decT →
      fidelityStep decT incT spare ls = ⟨0, fidDown ls.automaticFidelity⟩) ∧
    (decT < ls.fidelityScore + spare → ls.fidelityScore + spare < incT →
      fidelityStep decT incT spare ls
        = ⟨ls.fidelityScore + spare, ls.automaticFidelity⟩) ∧
    (incT ≤ ls.fidelityScore + spare →
      fidelityStep decT incT spare ls = ⟨0, fidUp ls.automaticFidelity⟩) ∧
    (fidelityStep decT incT spare ls).automaticFidelity.toNat ≤ Fid.High.toNat ∧
    Fid.Minimum.toNat ≤ (fidelityStep decT incT spare ls).automaticFidelity.toNat ∧
    ((fidelityStep decT incT spare ls).automaticFidelity.toNat : ℤ)
        - (ls.automaticFidelity.toNat : ℤ) ≤ 1 ∧
    (ls.automaticFidelity.toNat : ℤ)
        - ((fidelityStep decT incT spare ls).automaticFidelity.toNat : ℤ) ≤ 1 := by
  have hni : ¬((0 : ℚ) ≥ incT) := by linarith
  refine ⟨?_, ?_, ?_, ?_, ?_, ?_, ?_⟩
  · intro h
    simp [fidelityStep, h, hni]
  · intro h1 h2
    have hn1 : ¬(ls.fidelityScore + spare ≤ decT) := by linarith
    have hn2 : ¬(ls.fidelityScore + spare ≥ incT) := by linarith
    simp [fidelityStep, hn1, hn2]
  · intro h
    have hn1 : ¬(ls.fidelityScore + spare ≤ decT) := by linarith
    have h2 : ls.fidelityScore + spare ≥ incT := by linarith
    simp [fidelityStep, hn1, h2]
  all_goals
    simp only [fidelityStep]
    split_ifs <;> cases ls.automaticFidelity <;> simp [fidUp, fidDown, Fid.toNat]

/-- Witness for C3 at a concrete input: a spare-time surplus crossing the
increment threshold steps the level up once and resets the score. -/
theorem C3_fidelity_controller_witness :
    fidelityStep (-1) 1 5 ⟨0, Fid.Medium⟩ = ⟨0, fidUp Fid.Medium⟩ :=
  (C3_fidelity_controller (-1) 1 5 ⟨0, Fid.Medium⟩ (by norm_num)
    (by norm_num)).2.2.1 (by norm_num)

/-- C4: `removeClient` on an unknown id returns the empty sequence and
leaves the state untouched; on a registered id it always — whatever the
engine oracle does, faults included — unregisters the id from the registry
and from both queue maps. -/
theorem C4_removeClient_cleanup (st : WSState) (id : ClientId) (o : RemoveOracle) :
    (id ∉ st.clients → removeClient st id o = .ok ([], st)) ∧
    (id ∈ st.clients → ∃ pkts st1, removeClient st id o = .ok (pkts, st1) ∧
      id ∉ st1.clients ∧ qHas st1.incoming id = false ∧
      qHas st1.outgoing id = false) := by
  constructor
  · exact removeClient_unreg st id o
  · intro h
    obtain ⟨pkts, hp⟩ := removeClient_ok st id o
    refine ⟨pkts, removeSt st id o, hp, ?_, removeSt_incoming_has_self _ _ _ h,
      removeSt_outgoing_has_self _ _ _ h⟩
    rw [removeSt_clients]
    intro hm
    exact (mem_listErase.mp hm).2 rfl

/-- A registered client used to witness C4 and C10. -/
def wsA : WSState :=
  { clients := [3], engineClients := [3], incoming := [(3, [5])],
    outgoing := [(3, [6])], errorOccurred := false, engineFidelity := Fid.Medium }

/-- Witness for C4 at concrete inputs: an unknown id leaves the state
untouched; a registered id is scrubbed from registry and queues. -/
theorem C4_removeClient_cleanup_witness :
    (removeClient initWS 3 ⟨Except.ok (), Except.ok []⟩ = .ok ([], initWS)) ∧
    (∃ pkts st1, removeClient wsA 3 ⟨Except.ok (), Except.ok [9]⟩
        = .ok (pkts, st1) ∧ 3 ∉ st1.clients ∧ qHas st1.incoming 3 = false ∧
      qHas st1.outgoing 3 = false) :=
  ⟨(C4_removeClient_cleanup initWS 3 ⟨Except.ok (), Except.ok []⟩).1 (by decide),
   (C4_removeClient_cleanup wsA 3 ⟨Except.ok (), Except.ok [9]⟩).2 (by decide)⟩

/-- C10: when delivery of the drained incoming packets faults during
`removeClient` of a registered id the engine still recognizes, the call
returns the empty sequence and the packets that were pending in the id's
outgoing queue are discarded — neither returned nor retained in any
queue (the id's entries are removed, every other id's queues are
untouched). -/
theorem C10_remove_fault_discards (st : WSState) (id : ClientId) (o : RemoveOracle)
    (hreg : id ∈ st.clients) (heng : id ∈ st.engineClients)
    (hfault : o.handle = .error ()) :
    ∃ st1, removeClient st id o = .ok ([], st1) ∧
      qHas st1.outgoing id = false ∧ qHas st1.incoming id = false ∧
      (∀ j, j ≠ id → qGet st1.outgoing j = qGet st.outgoing j ∧
        qGet st1.incoming j = qGet st.incoming j) :=
  ⟨removeSt st id o, removeClient_fault_empty st id o hreg heng hfault,
    removeSt_outgoing_has_self _ _ _ hreg, removeSt_incoming_has_self _ _ _ hreg,
    fun j hj => ⟨removeSt_outgoing_get_ne _ _ _ hj, removeSt_incoming_get_ne _ _ _ hj⟩⟩

/-- Witness for C10 at a concrete input: the pending outgoing packet `[6]`
of client 3 is dropped when delivery faults during removal. -/
theorem C10_remove_fault_discards_witness :
    ∃ st1, removeClient wsA 3 ⟨Except.error (), Except.ok [9]⟩ = .ok ([], st1) ∧
      qHas st1.outgoing 3 = false ∧ qHas st1.incoming 3 = false ∧
      (∀ j, j ≠ 3 → qGet st1.outgoing j = qGet wsA.outgoing j ∧
        qGet st1.incoming j = qGet wsA.incoming j) :=
  C10_remove_fault_discards wsA 3 ⟨Except.error (), Except.ok [9]⟩
    (by decide) (by decide) rfl

/-- C1, counterexample: `executeAction` has no `try`/`catch` — a fault
raised by the injected action propagates out of the public operation to its
caller, so the claimed catch-all boundary policy is false as stated. -/
theorem C1_executeAction_cex :
    executeAction initWS (fun s => Except.error s) = Except.error initWS := rfl

/-- C1, amended: every listed public operation except `executeAction`
catches every fault its engine calls can raise and returns normally (safe
value plus, where applicable, the sticky flag); `executeAction` runs the
injected action with no handler, so a fault in the action escapes to the
caller. -/
theorem C1_boundaries_amended :
    (∀ st id resp, ∃ r, addClient st id resp = .ok r) ∧
    (∀ st id o, ∃ r, removeClient st id o = .ok r) ∧
    (∀ st resp, ∃ r, spawnTargetValid st resp = .ok r) ∧
    (∀ st resp, ∃ r, playerRevivePosition st resp = .ok r) ∧
    (∀ st resp, ∃ r, pullNewPlanetType st resp = .ok r) ∧
    (∀ st resp, ∃ r, readChunks st resp = .ok r) ∧
    (∀ st ls locked pause hook o se sr d i s,
      ∃ r, runStep st ls locked pause hook o se sr d i s = .ok r) ∧
    (∃ st action e, executeAction st action = Except.error e) := by
  refine ⟨?_, ?_, ?_, ?_, ?_, ?_, ?_, ?_⟩
  · intro st id resp
    rcases resp with u | b
    · exact ⟨_, rfl⟩
    · cases b
      · exact ⟨_, rfl⟩
      · exact ⟨_, rfl⟩
  · intro st id o
    obtain ⟨pkts, hp⟩ := removeClient_ok st id o
    exact ⟨_, hp⟩
  · intro st resp
    rcases resp with u | b
    · exact ⟨_, rfl⟩
    · exact ⟨_, rfl⟩
  · intro st resp
    rcases resp with u | v
    · exact ⟨_, rfl⟩
    · rcases v with _ | pf
      · exact ⟨_, rfl⟩
      · exact ⟨_, rfl⟩
  · intro st resp
    rcases resp with u | v
    · exact ⟨_, rfl⟩
    · exact ⟨_, rfl⟩
  · intro st resp
    rcases resp with u | v
    · exact ⟨_, rfl⟩
    · exact ⟨_, rfl⟩
  · intro st ls locked pause hook o se sr d i s
    unfold runStep
    rcases update st (locked.getD ls.automaticFidelity) pause hook o with e | p
    · exact ⟨_, rfl⟩
    · obtain ⟨st1, lg⟩ := p
      cases se
      · exact ⟨_, rfl⟩
      · rcases sr with e2 | u
        · exact ⟨_, rfl⟩
        · exact ⟨_, rfl⟩
  · exact ⟨initWS, fun s => Except.error s, initWS, rfl⟩

/-- C6, counterexample: with a fixed fidelity override configured
(`lockedFidelity = High`), one loop iteration still accumulates the spare
time into the score, still compares it to the thresholds, and still raises
the automatic level — the controller state moves from `⟨0, Medium⟩` to
`⟨0, High⟩` instead of staying put as the claim requires. -/
theorem C6_locked_fidelity_cex :
    runStep initWS ⟨0, Fid.Medium⟩ (some Fid.High) none none
        (mkTickOracle (fun _ => false) (fun _ => []) (fun _ => []))
        false (Except.ok ()) (-1) 1 1
      = Except.ok ({ initWS with engineFidelity := Fid.High }, ⟨0, Fid.High⟩) ∧
    (⟨0, Fid.High⟩ : LoopState) ≠ (⟨0, Fid.Medium⟩ : LoopState) := by
  constructor
  · have h1 : ¬((0 : ℚ) + 1 ≤ -1) := by norm_num
    have h2 : ((0 : ℚ) + 1 ≥ 1) := by norm_num
    unfold runStep
    simp only [Option.getD_some]
    rw [update_mk]
    simp [fidelityStep, h1, h2, deliverPure, collectPure, initWS, fidUp]
    norm_num
  · intro hh
    cases hh

/-- C6, amended: with a fixed override, every tick applies exactly the
override level to the engine, but the automatic-controller steps are not
skipped — the score accumulates and the thresholds fire exactly as they
would without the override (identical controller state either way); the
changed automatic level merely has no effect on the applied level while the
override is configured. -/
theorem C6_locked_fidelity_amended (st : WSState) (ls : LoopState) (f : Fid)
    (pause : Option Bool) (hf : ClientId → Bool) (rp pr : ClientId → List Packet)
    (se : Bool) (sr : Except Unit Unit) (d i s : ℚ) (hsr : sr = .ok ()) :
    (∃ st1, runStep st ls (some f) pause none (mkTickOracle hf rp pr) se sr d i s
        = .ok (st1, fidelityStep d i s ls) ∧ st1.engineFidelity = f) ∧
    (runStep st ls (some f) pause none (mkTickOracle hf rp pr) se sr d i s).map
        (fun r => r.2)
      = (runStep st ls none pause none (mkTickOracle hf rp pr) se sr d i s).map
        (fun r => r.2) := by
  subst hsr
  constructor
  · refine ⟨tickSt st f pause hf rp pr, ?_, tickSt_fid st f pause hf rp pr⟩
    unfold runStep
    simp only [Option.getD_some]
    rw [update_mk]
    cases se <;> simp [tickSt_eq]
  · unfold runStep
    simp only [Option.getD_some, Option.getD_none]
    rw [update_mk, update_mk]
    cases se <;> rfl

/-- Witness for C6 (amended) at a concrete input. -/
theorem C6_locked_fidelity_amended_witness :
    (∃ st1, runStep initWS ⟨0, Fid.Medium⟩ (some Fid.High) none none
        (mkTickOracle (fun _ => false) (fun _ => []) (fun _ => []))
        false (Except.ok ()) (-1) 1 1
      = .ok (st1, fidelityStep (-1) 1 1 ⟨0, Fid.Medium⟩) ∧
      st1.engineFidelity = Fid.High) ∧
    (runStep initWS ⟨0, Fid.Medium⟩ (some Fid.High) none none
        (mkTickOracle (fun _ => false) (fun _ => []) (fun _ => []))
        false (Except.ok ()) (-1) 1 1).map (fun r => r.2)
      = (runStep initWS ⟨0, Fid.Medium⟩ none none none
        (mkTickOracle (fun _ => false) (fun _ => []) (fun _ => []))
        false (Except.ok ()) (-1) 1 1).map (fun r => r.2) :=
  C6_locked_fidelity_amended initWS ⟨0, Fid.Medium⟩ Fid.High none
    (fun _ => false) (fun _ => []) (fun _ => []) false (Except.ok ())
    (-1) 1 1 rfl

/-! ### The destructor's cleanup (C5) -/

theorem removeSt_preserve_removed (s : WSState) (k : ClientId) (o : RemoveOracle)
    (j : ClientId) (hc : j ∉ s.clients) (hi : qHas s.incoming j = false)
    (ho : qHas s.outgoing j = false) :
    j ∉ (removeSt s k o).clients ∧ qHas (removeSt s k o).incoming j = false ∧
      qHas (removeSt s k o).outgoing j = false := by
  by_cases hk : k = j
  · subst hk
    rw [removeSt_unreg _ _ _ hc]
    exact ⟨hc, hi, ho⟩
  · have hjk : j ≠ k := fun hh => hk hh.symm
    refine ⟨?_, ?_, ?_⟩
    · rw [removeSt_clients]
      intro hm
      exact hc (mem_listErase.mp hm).1
    · rw [removeSt_incoming_has_ne _ _ _ hjk]
      exact hi
    · rw [removeSt_outgoing_has_ne _ _ _ hjk]
      exact ho

theorem cleanupFold_clients (ro : ClientId → RemoveOracle) (l : List ClientId)
    (s : WSState) :
    (l.foldl (fun s2 id => removeSt s2 id (ro id)) s).clients
      = s.clients.filter (fun j => decide (j ∉ l)) := by
  induction l generalizing s with
  | nil => simp
  | cons id rest ih =>
    rw [List.foldl_cons, ih, removeSt_clients]
    unfold listErase
    rw [List.filter_filter]
    apply List.filter_congr
    intro a _
    by_cases h1 : a = id <;> by_cases h2 : a ∈ rest <;> simp [h1, h2]

theorem cleanupFold_preserve (ro : ClientId → RemoveOracle) (l : List ClientId)
    (s : WSState) (j : ClientId) (hc : j ∉ s.clients)
    (hi : qHas s.incoming j = false) (ho : qHas s.outgoing j = false) :
    j ∉ (l.foldl (fun s2 id => removeSt s2 id (ro id)) s).clients ∧
      qHas (l.foldl (fun s2 id => removeSt s2 id (ro id)) s).incoming j = false ∧
      qHas (l.foldl (fun s2 id => removeSt s2 id (ro id)) s).outgoing j = false := by
  induction l generalizing s with
  | nil => exact ⟨hc, hi, ho⟩
  | cons id rest ih =>
    rw [List.foldl_cons]
    obtain ⟨a, b, c⟩ := removeSt_preserve_removed s id (ro id) j hc hi ho
    exact ih _ a b c

theorem cleanupFold_removed (ro : ClientId → RemoveOracle) (l : List ClientId)
    (s : WSState) (j : ClientId) (hj : j ∈ l) (hc : j ∈ s.clients) :
    j ∉ (l.foldl (fun s2 id => removeSt s2 id (ro id)) s).clients ∧
      qHas (l.foldl (fun s2 id => removeSt s2 id (ro id)) s).incoming j = false ∧
      qHas (l.foldl (fun s2 id => removeSt s2 id (ro id)) s).outgoing j = false := by
  induction l generalizing s with
  | nil => cases hj
  | cons id rest ih =>
    rw [List.foldl_cons]
    by_cases hji : j = id
    · subst hji
      have h1 : j ∉ (removeSt s j (ro j)).clients := by
        rw [removeSt_clients]
        intro hm
        exact (mem_listErase.mp hm).2 rfl
      exact cleanupFold_preserve ro rest _ j h1
        (removeSt_incoming_has_self s j (ro j) hc)
        (removeSt_outgoing_has_self s j (ro j) hc)
    · rcases List.mem_cons.mp hj with h | h
      · exact absurd h hji
      · refine ih _ h ?_
        rw [removeSt_clients]
        exact mem_listErase.mpr ⟨hc, hji⟩

/-- C5, counterexample: after a per-client fault is isolated mid-tick the
engine no longer lists the client, so the destructor's pass over
`m_worldServer->clientIds()` never removes it — the registry and its
outgoing-queue entry survive destruction, refuting the claim that the
cleanup covers every id listed in the Client Registry. -/
theorem C5_destructor_cex :
    destructorCleanup
        (runOps initWS [Op.add 1 (Except.ok true),
          Op.tick Fid.Medium none (fun j => decide (j = 1))
            (fun _ => []) (fun _ => [])])
        (fun _ => ⟨Except.ok (), Except.ok []⟩)
      = runOps initWS [Op.add 1 (Except.ok true),
          Op.tick Fid.Medium none (fun j => decide (j = 1))
            (fun _ => []) (fun _ => [])] ∧
    (runOps initWS [Op.add 1 (Except.ok true),
        Op.tick Fid.Medium none (fun j => decide (j = 1))
          (fun _ => []) (fun _ => [])]).clients = [1] ∧
    qHas (runOps initWS [Op.add 1 (Except.ok true),
        Op.tick Fid.Medium none (fun j => decide (j = 1))
          (fun _ => []) (fun _ => [])]).outgoing 1 = true := by
  decide

/-- C5, amended: the destructor's cleanup pass applies `removeClient` to
every id the *engine* still recognizes.  Afterwards every id that was both
engine-recognized and registered is gone from the registry and from both
queue maps; but a registered id the engine had already dropped survives:
the final registry is exactly the old registry minus the engine's ids. -/
theorem C5_destructor_amended (st : WSState) (ro : ClientId → RemoveOracle) :
    (destructorCleanup st ro).clients
        = st.clients.filter (fun j => decide (j ∉ st.engineClients)) ∧
    ∀ j, j ∈ st.engineClients → j ∈ st.clients →
      j ∉ (destructorCleanup st ro).clients ∧
      qHas (destructorCleanup st ro).incoming j = false ∧
      qHas (destructorCleanup st ro).outgoing j = false :=
  ⟨cleanupFold_clients ro st.engineClients st,
   fun j hj hc => cleanupFold_removed ro st.engineClients st j hj hc⟩

/-- Witness for C5 (amended) at a concrete input. -/
theorem C5_destructor_amended_witness :
    (destructorCleanup wsA (fun _ => ⟨Except.ok (), Except.ok []⟩)).clients
        = wsA.clients.filter (fun j => decide (j ∉ wsA.engineClients)) ∧
    3 ∉ (destructorCleanup wsA (fun _ => ⟨Except.ok (), Except.ok []⟩)).clients ∧
    qHas (destructorCleanup wsA
        (fun _ => ⟨Except.ok (), Except.ok []⟩)).incoming 3 = false ∧
    qHas (destructorCleanup wsA
        (fun _ => ⟨Except.ok (), Except.ok []⟩)).outgoing 3 = false :=
  ⟨(C5_destructor_amended wsA (fun _ => ⟨Except.ok (), Except.ok []⟩)).1,
   (C5_destructor_amended wsA (fun _ => ⟨Except.ok (), Except.ok []⟩)).2 3
     (by decide) (by decide)⟩

/-- C7, counterexample: `pushIncomingPackets` for the never-registered id 5
creates an incoming-queue entry while the registry stays empty, and even
`removeClient` cannot clear it (it early-returns for unknown ids) — the
entry is lasting, refuting the claim. -/
theorem C7_queue_subset_cex :
    (pushIncomingPackets initWS 5 [7]).clients = [] ∧
    qHas (pushIncomingPackets initWS 5 [7]).incoming 5 = true ∧
    removeClient (pushIncomingPackets initWS 5 [7]) 5 ⟨Except.ok (), Except.ok []⟩
      = .ok ([], pushIncomingPackets initWS 5 [7]) := by
  decide

/-! ### The queue-key/registry subset invariant (C7) -/

/-- Both queue maps' key sets are contained in the registry, and — while
the run loop is still alive (no sticky error) — the engine's client set is
contained in the registry as well. -/
def RegInv (st : WSState) : Prop :=
  (∀ j, qHas st.incoming j = true → j ∈ st.clients) ∧
  (∀ j, qHas st.outgoing j = true → j ∈ st.clients) ∧
  (st.errorOccurred = false → ∀ j, j ∈ st.engineClients → j ∈ st.clients)

/-- The operation only pushes or pulls packets for currently registered
ids (the discipline under which the subset invariant is preserved). -/
def regOnly (st : WSState) : Op → Prop
  | Op.push j _ => j ∈ st.clients
  | Op.pull j => j ∈ st.clients
  | _ => True

/-- Every push/pull in the trace targets an id registered at that point. -/
def regOnlyTrace : WSState → List Op → Prop
  | _, [] => True
  | st, op :: rest => regOnly st op ∧ regOnlyTrace (applyOp st op) rest

theorem removeSt_error_mono (st : WSState) (id : ClientId) (o : RemoveOracle)
    (h : (removeSt st id o).errorOccurred = false) : st.errorOccurred = false := by
  by_cases hc : id ∈ st.clients
  · obtain ⟨hh, hp⟩ := o
    by_cases heng : id ∈ st.engineClients <;>
      rcases hh with u | u <;> rcases hp with ps | ps <;>
        simp [removeSt, removeClient, setError, hc, heng] at h <;> exact h
  · rwa [removeSt_unreg _ _ _ hc] at h

theorem removeSt_engine_ne (st : WSState) (id : ClientId) (o : RemoveOracle)
    (j : ClientId) (hreg : id ∈ st.clients)
    (hflag : (removeSt st id o).errorOccurred = false)
    (hm : j ∈ (removeSt st id o).engineClients) : j ≠ id := by
  obtain ⟨hh, hp⟩ := o
  by_cases heng : id ∈ st.engineClients <;>
    rcases hh with u | u <;> rcases hp with ps | ps <;>
      simp [removeSt, removeClient, setError, hreg, heng, mem_listErase] at hflag hm <;>
      first
        | exact hm.2
        | exact fun hji => heng (hji ▸ hm)

theorem RegInv_applyOp (st : WSState) (op : Op) (hinv : RegInv st)
    (hop : regOnly st op) : RegInv (applyOp st op) := by
  obtain ⟨h1, h2, h3⟩ := hinv
  cases op with
  | push id ps =>
    refine ⟨?_, h2, h3⟩
    intro j hj
    simp only [applyOp, pushIncomingPackets, qHas_qAppend] at hj
    rcases Bool.or_eq_true_iff.mp hj with hji | hji
    · exact (of_decide_eq_true hji) ▸ hop
    · exact h1 j hji
  | pull id =>
    refine ⟨h1, ?_, h3⟩
    intro j hj
    simp only [applyOp, pullOutgoingPackets, qHas_qSet] at hj
    rcases Bool.or_eq_true_iff.mp hj with hji | hji
    · exact (of_decide_eq_true hji) ▸ hop
    · exact h2 j hji
  | add id resp =>
    rcases resp with u | b
    · exact ⟨h1, h2, fun hf => by simp [applyOp, addSt, addClient, setError] at hf⟩
    · cases b
      · exact ⟨h1, h2, h3⟩
      · refine ⟨fun j hj => mem_listAdd.mpr (Or.inr (h1 j hj)),
          fun j hj => mem_listAdd.mpr (Or.inr (h2 j hj)), ?_⟩
        intro hf j hm
        rcases mem_listAdd.mp hm with hji | hji
        · exact mem_listAdd.mpr (Or.inl hji)
        · exact mem_listAdd.mpr (Or.inr (h3 hf j hji))
  | remove id o =>
    by_cases hreg : id ∈ st.clients
    · refine ⟨?_, ?_, ?_⟩
      · intro j hj
        by_cases hji : j = id
        · subst hji
          rw [show (applyOp st (Op.remove j o)) = removeSt st j o from rfl,
            removeSt_incoming_has_self st j o hreg] at hj
          cases hj
        · simp only [applyOp] at hj ⊢
          rw [removeSt_incoming_has_ne _ _ _ hji] at hj
          rw [removeSt_clients]
          exact mem_listErase.mpr ⟨h1 j hj, hji⟩
      · intro j hj
        by_cases hji : j = id
        · subst hji
          rw [show (applyOp st (Op.remove j o)) = removeSt st j o from rfl,
            removeSt_outgoing_has_self st j o hreg] at hj
          cases hj
        · simp only [applyOp] at hj ⊢
          rw [removeSt_outgoing_has_ne _ _ _ hji] at hj
          rw [removeSt_clients]
          exact mem_listErase.mpr ⟨h2 j hj, hji⟩
      · intro hf j hm
        simp only [applyOp] at hf hm ⊢
        have hsm := removeSt_error_mono st id o hf
        have hje := removeSt_engine_mem st id o j hm
        rw [removeSt_clients]
        exact mem_listErase.mpr ⟨h3 hsm j hje, removeSt_engine_ne st id o j hreg hf hm⟩
    · have hun : applyOp st (Op.remove id o) = st := removeSt_unreg st id o hreg
      rw [hun]
      exact ⟨h1, h2, h3⟩
  | tick f p hf rp pr =>
    rcases Bool.eq_false_or_eq_true st.errorOccurred with herr | herr
    · have happ : applyOp st (Op.tick f p hf rp pr) = st := by
        simp [applyOp, herr]
      rw [happ]
      exact ⟨h1, h2, h3⟩
    · have happ : applyOp st (Op.tick f p hf rp pr) = tickSt st f p hf rp pr := by
        simp [applyOp, herr]
      rw [happ]
      refine ⟨?_, ?_, ?_⟩
      · intro j hj
        rw [tickSt_clients]
        rcases (tickSt_incoming_has st f p hf rp pr j).mp hj with hje | hjo
        · exact h3 herr j hje
        · exact h1 j hjo
      · intro j hj
        rw [tickSt_clients]
        rcases (tickSt_outgoing_has st f p hf rp pr j).mp hj with hje | hje | hjo
        · exact h3 herr j hje.1
        · exact h3 herr j hje.1
        · exact h2 j hjo
      · intro _ j hm
        rw [tickSt_clients]
        exact h3 herr j ((tickSt_engine_mem st f p hf rp pr j).mp hm).1

theorem RegInv_runOps (ops : List Op) : ∀ st : WSState, RegInv st →
    regOnlyTrace st ops → RegInv (runOps st ops) := by
  induction ops with
  | nil => exact fun st h _ => h
  | cons op rest ih =>
    intro st h ht
    exact ih _ (RegInv_applyOp st op h ht.1) ht.2

/-- C7, amended: a `pushIncoming`/`pullOutgoing` call for a never-registered
id does leave a lasting queue entry (see the counterexample); the subset
invariant — queue-map key sets contained in the registry — holds along
every trace in which pushes and pulls only target currently registered
ids. -/
theorem C7_queue_subset_amended (st : WSState) (ops : List Op)
    (hinv : RegInv st) (hops : regOnlyTrace st ops) : RegInv (runOps st ops) :=
  RegInv_runOps ops st hinv hops

theorem regInv_init : RegInv initWS :=
  ⟨fun j hj => by simp [initWS, qHas] at hj,
   fun j hj => by simp [initWS, qHas] at hj,
   fun _ j hj => by simp [initWS] at hj⟩

/-- Witness for C7 (amended): a register-then-push-then-pull trace keeps
the invariant. -/
theorem C7_queue_subset_amended_witness :
    RegInv (runOps initWS [Op.add 1 (Except.ok true), Op.push 1 [2], Op.pull 1]) :=
  C7_queue_subset_amended initWS
    [Op.add 1 (Except.ok true), Op.push 1 [2], Op.pull 1] regInv_init
    ⟨trivial,
     show (1 : ClientId) ∈ (applyOp initWS (Op.add 1 (Except.ok true))).clients by
       decide,
     show (1 : ClientId) ∈ (applyOp (applyOp initWS (Op.add 1 (Except.ok true)))
         (Op.push 1 [2])).clients by decide,
     trivial⟩

/-- C2: when delivering client `A`'s drained packets faults during a tick,
the tick returns normally and: `A`'s outgoing queue becomes its pending
content followed by the engine's removal packets, `A` is force-removed
from the engine (and only from the engine — the registry is untouched),
`A` receives nothing further this tick (no successful-delivery log entry,
no produced packets), while every non-faulting engine client `B` is
delivered exactly its queued packets and gets the engine's produced
packets appended to its outgoing queue in the same tick. -/
theorem C2_fault_isolation (st : WSState) (A : ClientId) (fid : Fid)
    (pause : Option Bool) (hf : ClientId → Bool) (rp pr : ClientId → List Packet)
    (hnd : st.engineClients.Nodup) (hA : A ∈ st.engineClients)
    (hfA : hf A = true) :
    ∃ st1 log, update st fid pause none (mkTickOracle hf rp pr) = .ok (st1, log) ∧
      qGet st1.outgoing A = qGet st.outgoing A ++ rp A ∧
      A ∉ st1.engineClients ∧ st1.clients = st.clients ∧
      (∀ p, (A, p) ∉ log) ∧
      (∀ B, B ∈ st.engineClients → hf B = false →
        (B, qGet st.incoming B) ∈ log ∧
        qGet st1.outgoing B = qGet st.outgoing B ++ pr B) := by
  obtain ⟨st1, hlog⟩ := tickLog st fid pause hf rp pr hnd
  have hts : tickSt st fid pause hf rp pr = st1 := by
    unfold tickSt
    rw [hlog]
  refine ⟨st1, _, hlog, ?_, ?_, ?_, ?_, ?_⟩
  · rw [← hts, tickSt_outgoing_get st fid pause hf rp pr hnd A]
    simp [tickSeg, hA, hfA]
  · rw [← hts]
    intro hm
    have hmm := (tickSt_engine_mem st fid pause hf rp pr A).mp hm
    rw [hfA] at hmm
    cases hmm.2
  · rw [← hts, tickSt_clients]
  · intro p hp
    rcases List.mem_map.mp hp with ⟨j, hjf, hje⟩
    have hj1 : j = A := congrArg Prod.fst hje
    have hj2 := (List.mem_filter.mp hjf).2
    rw [hj1, hfA] at hj2
    cases hj2
  · intro B hB hfB
    constructor
    · exact List.mem_map_of_mem _ (List.mem_filter.mpr ⟨hB, by simp [hfB]⟩)
    · rw [← hts, tickSt_outgoing_get st fid pause hf rp pr hnd B]
      simp [tickSeg, hB, hfB]

/-- A two-client world used to witness C2. -/
def wsB : WSState :=
  { clients := [1, 2], engineClients := [1, 2],
    incoming := [(1, [10]), (2, [20])], outgoing := [(2, [30])],
    errorOccurred := false, engineFidelity := Fid.Medium }

/-- Witness for C2 at a concrete input: client 1 faults, client 2 is
delivered `[20]` and receives the produced `[7]` behind its pending
`[30]`. -/
theorem C2_fault_isolation_witness :
    ∃ st1 log, update wsB Fid.Medium none none
        (mkTickOracle (fun j => decide (j = 1)) (fun _ => [5]) (fun _ => [7]))
      = .ok (st1, log) ∧
      qGet st1.outgoing 1 = qGet wsB.outgoing 1 ++ [5] ∧
      1 ∉ st1.engineClients ∧ st1.clients = wsB.clients ∧
      (∀ p, ((1 : ClientId), p) ∉ log) ∧
      (∀ B, B ∈ wsB.engineClients → decide (B = 1) = false →
        (B, qGet wsB.incoming B) ∈ log ∧
        qGet st1.outgoing B = qGet wsB.outgoing B ++ [7]) :=
  C2_fault_isolation wsB 1 Fid.Medium none (fun j => decide (j = 1))
    (fun _ => [5]) (fun _ => [7]) (by decide) (by decide) (by decide)

/-! ### Per-id FIFO of the outgoing queue (C8) -/

/-- The operations the FIFO claim quantifies over: pushes, pulls, ticks. -/
def queueOnly : Op → Bool
  | Op.push _ _ => true
  | Op.pull _ => true
  | Op.tick _ _ _ _ _ => true
  | _ => false

/-- Concatenation, in trace order, of everything the successive
`pullOutgoingPackets id` calls of the trace return. -/
def pulledAlong (id : ClientId) : WSState → List Op → List Packet
  | _, [] => []
  | st, op :: rest =>
    (match op with
     | Op.pull j => if j = id then qGet st.outgoing id else []
     | _ => []) ++ pulledAlong id (applyOp st op) rest

/-- Concatenation, in trace order, of every packet segment the ticks of the
trace append to `id`'s outgoing queue. -/
def producedAlong (id : ClientId) : WSState → List Op → List Packet
  | _, [] => []
  | st, op :: rest =>
    (match op with
     | Op.tick _ _ hf rp pr =>
       if st.errorOccurred then [] else tickSeg st id hf rp pr
     | _ => []) ++ producedAlong id (applyOp st op) rest

theorem fifo_aux (id : ClientId) (ops : List Op) :
    (∀ op ∈ ops, queueOnly op = true) → ∀ st : WSState, st.engineClients.Nodup →
    pulledAlong id st ops ++ qGet (runOps st ops).outgoing id
      = qGet st.outgoing id ++ producedAlong id st ops := by
  induction ops with
  | nil =>
    intro _ st _
    simp [pulledAlong, producedAlong, runOps]
  | cons op rest ih =>
    intro hq st hnd
    have hrest := fun o ho => hq o (List.mem_cons_of_mem _ ho)
    have hop := hq op (List.mem_cons_self op rest)
    cases op with
    | push j ps =>
      have h1 : (applyOp st (Op.push j ps)).outgoing = st.outgoing := rfl
      have h2 : (applyOp st (Op.push j ps)).engineClients = st.engineClients := rfl
      simp only [pulledAlong, producedAlong, runOps, List.nil_append]
      rw [ih hrest _ (by rw [h2]; exact hnd), h1]
    | pull j =>
      have h2 : (applyOp st (Op.pull j)).engineClients = st.engineClients := rfl
      by_cases hj : j = id
      · subst hj
        have h1 : qGet (applyOp st (Op.pull j)).outgoing j = [] :=
          qGet_qSet_self st.outgoing j []
        simp only [pulledAlong, producedAlong, runOps, if_pos rfl, List.nil_append]
        rw [List.append_assoc, ih hrest _ (by rw [h2]; exact hnd), h1]
        simp
      · have h1 : qGet (applyOp st (Op.pull j)).outgoing id = qGet st.outgoing id := by
          have hij : id ≠ j := fun hh => hj hh.symm
          exact qGet_qSet_ne st.outgoing hij []
        simp only [pulledAlong, producedAlong, runOps, if_neg hj, List.nil_append]
        rw [ih hrest _ (by rw [h2]; exact hnd), h1]
    | add j resp =>
      simp [queueOnly] at hop
    | remove j o =>
      simp [queueOnly] at hop
    | tick f p hf rp pr =>
      rcases Bool.eq_false_or_eq_true st.errorOccurred with herr | herr
      · have happ : applyOp st (Op.tick f p hf rp pr) = st := by
          simp [applyOp, herr]
        simp only [pulledAlong, producedAlong, runOps, happ, herr, if_pos,
          List.nil_append, ite_true]
        exact ih hrest st hnd
      · have happ : applyOp st (Op.tick f p hf rp pr)
            = tickSt st f p hf rp pr := by
          simp [applyOp, herr]
        have hnd2 : (applyOp st (Op.tick f p hf rp pr)).engineClients.Nodup := by
          rw [happ]
          exact tickSt_engine_nodup st f p hf rp pr hnd
        have h1 : qGet (applyOp st (Op.tick f p hf rp pr)).outgoing id
            = qGet st.outgoing id ++ tickSeg st id hf rp pr := by
          rw [happ]
          exact tickSt_outgoing_get st f p hf rp pr hnd id
        simp only [pulledAlong, producedAlong, runOps, herr, List.nil_append,
          Bool.false_eq_true, ite_false]
        rw [ih hrest _ hnd2, h1, List.append_assoc]

/-- C8: for every id and every interleaving of pushes, pulls and ticks, the
packets pulled from `id`'s outgoing queue come out in exactly the order the
ticks produced them for that id — the concatenation of everything pulled so
far followed by what is still queued equals the initial queue content
followed by everything produced, in trace order; and a `pullOutgoing`
immediately repeated returns empty, because a pull takes the whole
queue. -/
theorem C8_fifo (id : ClientId) (st : WSState) (ops : List Op)
    (hq : ∀ op ∈ ops, queueOnly op = true) (hnd : st.engineClients.Nodup) :
    (pulledAlong id st ops ++ qGet (runOps st ops).outgoing id
        = qGet st.outgoing id ++ producedAlong id st ops) ∧
    (∀ s : WSState, ∀ j, (pullOutgoingPackets (pullOutgoingPackets s j).2 j).1 = []) :=
  ⟨fifo_aux id ops hq st hnd,
   fun s j => qGet_qSet_self s.outgoing j []⟩

/-- A push/tick/pull/pull interleaving used to witness C8. -/
def c8ops : List Op :=
  [Op.push 3 [4],
   Op.tick Fid.Medium none (fun _ => false) (fun _ => []) (fun _ => [8]),
   Op.pull 3, Op.pull 3]

/-- Witness for C8 at a concrete input. -/
theorem C8_fifo_witness :
    (pulledAlong 3 wsA c8ops ++ qGet (runOps wsA c8ops).outgoing 3
        = qGet wsA.outgoing 3 ++ producedAlong 3 wsA c8ops) ∧
    (∀ s : WSState, ∀ j, (pullOutgoingPackets (pullOutgoingPackets s j).2 j).1 = []) :=
  C8_fifo 3 wsA c8ops (by decide) (by decide)

/-! ### Errored-client persistence (C9) -/

/-- C9, counterexample: after client 1's mid-tick fault isolation,
`erroredClients` reports it — but a later successful `addClient(1)` (and no
`removeClient` anywhere in the trace) clears the errored status, so
"until removeClient(id) is invoked" is false as stated. -/
theorem C9_errored_cex :
    erroredClients (runOps initWS [Op.add 1 (Except.ok true),
        Op.tick Fid.Medium none (fun j => decide (j = 1))
          (fun _ => []) (fun _ => [])])
      = [1] ∧
    erroredClients (runOps initWS [Op.add 1 (Except.ok true),
        Op.tick Fid.Medium none (fun j => decide (j = 1))
          (fun _ => []) (fun _ => []),
        Op.add 1 (Except.ok true)])
      = [] := by
  decide

/-- The trace neither removes the given id nor *successfully* re-adds it:
a re-`addClient` attempt the engine rejects (`.ok false`) or that faults
(`.error`) leaves the registry and engine untouched and is allowed. -/
def avoidsId (id : ClientId) : Op → Bool
  | Op.add j resp => decide (j ≠ id) || decide (resp ≠ Except.ok true)
  | Op.remove j _ => decide (j ≠ id)
  | _ => true

theorem errored_persist_applyOp (st : WSState) (id : ClientId) (op : Op)
    (hav : avoidsId id op = true)
    (hc : id ∈ st.clients) (he : id ∉ st.engineClients)
    (hi : qHas st.incoming id = true) (ho : qHas st.outgoing id = true) :
    id ∈ (applyOp st op).clients ∧ id ∉ (applyOp st op).engineClients ∧
      qHas (applyOp st op).incoming id = true ∧
      qHas (applyOp st op).outgoing id = true := by
  cases op with
  | push j ps =>
    refine ⟨hc, he, ?_, ho⟩
    simp [applyOp, pushIncomingPackets, qHas_qAppend, hi]
  | pull j =>
    refine ⟨hc, he, hi, ?_⟩
    simp [applyOp, pullOutgoingPackets, qHas_qSet, ho]
  | add j resp =>
    rcases resp with u | b
    · exact ⟨hc, he, hi, ho⟩
    · cases b
      · exact ⟨hc, he, hi, ho⟩
      · have hji : j ≠ id := by simpa [avoidsId] using hav
        refine ⟨mem_listAdd.mpr (Or.inr hc), ?_, hi, ho⟩
        intro hm
        rcases mem_listAdd.mp hm with h | h
        · exact hji h.symm
        · exact he h
  | remove j o =>
    have hji : j ≠ id := by simpa [avoidsId] using hav
    have hij : id ≠ j := fun hh => hji hh.symm
    refine ⟨?_, ?_, ?_, ?_⟩
    · show id ∈ (removeSt st j o).clients
      rw [removeSt_clients]
      exact mem_listErase.mpr ⟨hc, hij⟩
    · show id ∉ (removeSt st j o).engineClients
      intro hm
      exact he (removeSt_engine_mem _ _ _ _ hm)
    · show qHas (removeSt st j o).incoming id = true
      rw [removeSt_incoming_has_ne _ _ _ hij]
      exact hi
    · show qHas (removeSt st j o).outgoing id = true
      rw [removeSt_outgoing_has_ne _ _ _ hij]
      exact ho
  | tick f p hf rp pr =>
    rcases Bool.eq_false_or_eq_true st.errorOccurred with herr | herr
    · have happ : applyOp st (Op.tick f p hf rp pr) = st := by
        simp [applyOp, herr]
      rw [happ]
      exact ⟨hc, he, hi, ho⟩
    · have happ : applyOp st (Op.tick f p hf rp pr)
          = tickSt st f p hf rp pr := by
        simp [applyOp, herr]
      rw [happ]
      refine ⟨?_, ?_, ?_, ?_⟩
      · rw [tickSt_clients]
        exact hc
      · intro hm
        exact he ((tickSt_engine_mem st f p hf rp pr id).mp hm).1
      · exact (tickSt_incoming_has st f p hf rp pr id).mpr (Or.inr hi)
      · exact (tickSt_outgoing_has st f p hf rp pr id).mpr (Or.inr (Or.inr ho))

theorem errored_persist_runOps (id : ClientId) (ops : List Op) :
    (∀ op ∈ ops, avoidsId id op = true) → ∀ st : WSState,
    id ∈ st.clients → id ∉ st.engineClients → qHas st.incoming id = true →
    qHas st.outgoing id = true →
    id ∈ (runOps st ops).clients ∧ id ∉ (runOps st ops).engineClients ∧
      qHas (runOps st ops).incoming id = true ∧
      qHas (runOps st ops).outgoing id = true := by
  induction ops with
  | nil =>
    intro _ st hc he hi ho
    exact ⟨hc, he, hi, ho⟩
  | cons op rest ih =>
    intro hav st hc he hi ho
    obtain ⟨a, b, c, d⟩ := errored_persist_applyOp st id op
      (hav op (List.mem_cons_self op rest)) hc he hi ho
    exact ih (fun o hoo => hav o (List.mem_cons_of_mem _ hoo)) _ a b c d

/-- C9, amended: a tick that isolates a fault for a registered,
engine-known client leaves it in the registry and in both queue maps and
makes `erroredClients` report it; and this status persists across any
subsequent operations — pushes, pulls, ticks, add/remove of *other*
clients, and rejected or faulted re-`addClient(id)` attempts — until
`removeClient(id)` or a *successful* re-`addClient(id)` is invoked for
that id. -/
theorem C9_errored_persistence (st : WSState) (id : ClientId) :
    (∀ fid pause hf rp pr, id ∈ st.engineClients → id ∈ st.clients →
      hf id = true →
      id ∈ (tickSt st fid pause hf rp pr).clients ∧
      qHas (tickSt st fid pause hf rp pr).incoming id = true ∧
      qHas (tickSt st fid pause hf rp pr).outgoing id = true ∧
      id ∈ erroredClients (tickSt st fid pause hf rp pr)) ∧
    (∀ ops, (∀ op ∈ ops, avoidsId id op = true) → id ∈ st.clients →
      id ∉ st.engineClients → qHas st.incoming id = true →
      qHas st.outgoing id = true →
      id ∈ erroredClients (runOps st ops) ∧
      qHas (runOps st ops).incoming id = true ∧
      qHas (runOps st ops).outgoing id = true) := by
  constructor
  · intro fid pause hf rp pr heng hcl hfid
    refine ⟨?_, ?_, ?_, ?_⟩
    · rw [tickSt_clients]
      exact hcl
    · exact (tickSt_incoming_has st fid pause hf rp pr id).mpr (Or.inl heng)
    · exact (tickSt_outgoing_has st fid pause hf rp pr id).mpr
        (Or.inl ⟨heng, hfid⟩)
    · rw [mem_erroredClients]
      refine ⟨by rw [tickSt_clients]; exact hcl, ?_⟩
      intro hm
      have hmm := (tickSt_engine_mem st fid pause hf rp pr id).mp hm
      rw [hfid] at hmm
      cases hmm.2
  · intro ops hav hc he hi ho
    obtain ⟨a, b, c, d⟩ := errored_persist_runOps id ops hav st hc he hi ho
    exact ⟨mem_erroredClients.mpr ⟨a, b⟩, c, d⟩

/-- The state of a world whose only client has already been dropped by the
engine after fault isolation; used to witness C9. -/
def wsC : WSState :=
  { clients := [3], engineClients := [], incoming := [(3, [])],
    outgoing := [(3, [])], errorOccurred := false, engineFidelity := Fid.Medium }

/-- Witness for C9 (amended) at concrete inputs. -/
theorem C9_errored_persistence_witness :
    (3 ∈ (tickSt wsA Fid.Medium none (fun j => decide (j = 3))
        (fun _ => []) (fun _ => [])).clients ∧
      qHas (tickSt wsA Fid.Medium none (fun j => decide (j = 3))
        (fun _ => []) (fun _ => [])).incoming 3 = true ∧
      qHas (tickSt wsA Fid.Medium none (fun j => decide (j = 3))
        (fun _ => []) (fun _ => [])).outgoing 3 = true ∧
      3 ∈ erroredClients (tickSt wsA Fid.Medium none (fun j => decide (j = 3))
        (fun _ => []) (fun _ => []))) ∧
    (3 ∈ erroredClients (runOps wsC
        [Op.push 3 [1], Op.add 3 (Except.ok false), Op.pull 3]) ∧
      qHas (runOps wsC
        [Op.push 3 [1], Op.add 3 (Except.ok false), Op.pull 3]).incoming 3 = true ∧
      qHas (runOps wsC
        [Op.push 3 [1], Op.add 3 (Except.ok false), Op.pull 3]).outgoing 3 = true) :=
  ⟨(C9_errored_persistence wsA 3).1 Fid.Medium none (fun j => decide (j = 3))
      (fun _ => []) (fun _ => []) (by decide) (by decide) (by decide),
   (C9_errored_persistence wsC 3).2
      [Op.push 3 [1], Op.add 3 (Except.ok false), Op.pull 3]
      (by decide) (by decide) (by decide) (by decide) (by decide)⟩

end WorldServer
